import Mathlib

/-!
Verification of the SPM package installer (src/index.js) against its
natural-language specification.

The development shallowly embeds the resolver, tree optimizer, linker and
tarball reader of src/index.js.  External collaborators (node-fetch, semver,
fs-extra, tar-stream, gunzip-maybe, child_process) are abstracted as fields of
an `Env` record; everything written in src/index.js itself is translated
function by function.  Promise concurrency is sequentialized left-to-right and
side effects are recorded as an explicit event trace.
-/

/-- Dependency descriptor: a `(name, reference)` pair, as in the manifests. -/
structure Dep where
  name : String
  reference : String
deriving DecidableEq, Repr

/-- Resolved package node: a descriptor plus resolved children, the shape of
the objects produced by `getPackageDependencyTree` and consumed by
`optimizePackageTree` and `linkPackages`. -/
inductive Node where
  | mk (name : String) (reference : String) (dependencies : List Node)

/-- Projection: the `name` field of a node. -/
def Node.name : Node → String
  | .mk n _ _ => n

/-- Projection: the `reference` field of a node. -/
def Node.reference : Node → String
  | .mk _ r _ => r

/-- Projection: the `dependencies` list of a node. -/
def Node.dependencies : Node → List Node
  | .mk _ _ d => d

/-- Observable side effects of the installer, in program order.  HTTP fetches
and file reads come from `fetchPackage` and `getPinnedReference`; progress
counter updates model `pace.total += 1` and `pace.tick()`; the remaining
constructors are the filesystem / process effects of `linkPackages`. -/
inductive Ev where
  | fetchUrl (url : String)
  | readFs (path : String)
  | paceTotal
  | paceTick
  | extractTarball (buffer : String) (target : String)
  | mkdirp (path : String)
  | symlink (target : String) (dest : String)
  | exec (script : String) (cwd : String)
deriving DecidableEq, Repr

/-- A tar entry as surfaced by the tar-stream collaborator: a header name and
the entry contents. -/
structure TarEntry where
  header : String
  content : String
deriving DecidableEq, Repr

/-- Result of an HTTP GET as surfaced by node-fetch: the `ok` flag
(2xx status) and the response body. -/
structure HttpResp where
  ok : Bool
  body : String

/-- Abstraction of the external collaborators of src/index.js.  `validB`,
`validRangeB`, `satisfiesB` and `maxSatisfying` model the semver library;
`fsRead` models `fs.readFile`; `http` and `httpJsonVersions` model node-fetch
(the latter is `Object.keys(info.versions)` of the parsed registry JSON);
`parseEntries` models gunzip-maybe plus tar-stream turning a buffer into tar
entries; `parseManifestDeps` models `JSON.parse` plus the flattening of the
`dependencies` object into pairs; `binOf` and `scriptsOf` model
`require(target + "/package.json")` reads used by the linker; `execOk` models
whether a lifecycle script process exits with code 0. -/
structure Env where
  validB : String → Bool
  validRangeB : String → Bool
  satisfiesB : String → String → Bool
  maxSatisfying : List String → String → Option String
  fsRead : String → Except String String
  http : String → HttpResp
  httpJsonVersions : String → List String
  parseEntries : String → Except String (List TarEntry)
  parseManifestDeps : String → Except String (List Dep)
  binOf : String → List (String × String)
  scriptsOf : String → String → Option String
  execOk : String → String → Bool

/-! ## Error message constructors of src/index.js -/

/-- Message of the error thrown by `readFileFromArchive` on `finish` with no
matching entry (src/index.js line 63). -/
def notFoundMsg (fileName : String) : String :=
  "Couldn\x27t find \x22" ++ (fileName ++ "\x22 inside the archive")

/-- Message of the error thrown by `fetchPackage` on a non-ok response
(src/index.js line 269). -/
def fetchErrMsg (reference : String) : String :=
  "Couldn\x27t fetch package \x22" ++ (reference ++ "\x22")

/-- Message of the error thrown by `getPinnedReference` when no version
matches the range (src/index.js lines 284-286). -/
def unsatisfiedMsg (name reference : String) : String :=
  "Couldn\x27t find a version matching \x22" ++
    (reference ++ ("\x22 for package \x22" ++ (name ++ "\x22")))

/-- Message of the ReferenceError raised when the unbound identifier
`relative` is evaluated in `linkPackages` (src/index.js line 165). -/
def refErrMsg : String := "relative is not defined"

/-- Message of the error produced by `util.promisify(cp.exec)` when a
lifecycle script exits non-zero. -/
def execFailMsg (script : String) : String := "Command failed: " ++ script

/-- The registry metadata URL fetched by `getPinnedReference`
(src/index.js line 277). -/
def registryInfoUrl (name : String) : String :=
  "https://registry.yarnpkg.com/" ++ name

/-- The registry tarball URL built by `fetchPackage` (src/index.js line 262). -/
def registryTarballUrl (name reference : String) : String :=
  "https://registry.yarnpkg.com/" ++
    (name ++ ("/-/" ++ (name ++ ("-" ++ (reference ++ ".tgz")))))

/-- Substring occurrence, used to state that an error message names a package
or a reference. -/
def occursIn (needle hay : String) : Prop :=
  List.IsInfix needle.data hay.data

/-! ## ArchiveReader: `getFileName` and `readFileFromArchive` -/

/-- One iteration of the loop body of `getFileName` (src/index.js lines
17-25): `entryName.indexOf("/")` is `-1` exactly when no `/` occurs, in which
case the function returns null; otherwise the name is shortened to
`entryName.substr(index + 1)`. -/
def dropComponent : List Char → Option (List Char)
  | [] => none
  | c :: rest => if c = '/' then some rest else dropComponent rest

/-- The loop of `getFileName`, iterated `virtualPath` times. -/
def stripLoop : List Char → Nat → Option (List Char)
  | s, 0 => some s
  | s, t + 1 => (dropComponent s).bind (fun r => stripLoop r t)

/-- Translation of `getFileName(entryName, virtualPath)` (src/index.js lines
14-28).  The source assigns `entryName.replace(/^\/+/, "")` to the undeclared
identifier `parsedEntryName` and never reads it again, so the loop operates on
the original `entryName`, leading slashes included; the assignment has no
effect on the returned value and is therefore not represented. -/
def getFileName (entryName : String) (virtualPath : Nat) : Option String :=
  (stripLoop entryName.data virtualPath).map (fun l => String.mk l)

/-- Removal of leading slashes, following the wording of the specification. -/
def stripLeadingSlashes : List Char → List Char
  | [] => []
  | c :: rest => if c = '/' then stripLeadingSlashes rest else c :: rest

/-- Modelled from the spec (path stripping rule, section 4.1): given a header
name, first remove all leading `/` characters, then remove exactly the first
`stripN` slash-delimited components, yielding none when fewer components
exist.  This is the spec-side definition compared against the source-side
`getFileName`. -/
def specStripName (entryName : String) (stripN : Nat) : Option String :=
  (stripLoop (stripLeadingSlashes entryName.data) stripN).map (fun l => String.mk l)

/-- Translation of `readFileFromArchive(fileName, buffer, virtualPath)`
(src/index.js lines 30-76) on the decoded entry list: entries are streamed in
order, the first entry whose `getFileName`-stripped header equals `fileName`
resolves with that entry contents, and the `finish` handler rejects with the
not-found message when no entry matched. -/
def readFileFromArchive (fileName : String) (entries : List TarEntry)
    (virtualPath : Nat) : Except String String :=
  match entries.find? (fun e => getFileName e.header virtualPath == some fileName) with
  | some e => Except.ok e.content
  | none => Except.error (notFoundMsg fileName)

/-! ## Resolver: `isVolatileDependency`, `fetchPackage`, `getPinnedReference` -/

/-- Behaviour of `semver.satisfies(version, range)` when the version may be
`undefined` (the result of `available.get` on a missing key): semver's
`Range.test` returns false for a falsy version, so an absent version never
satisfies a range. -/
def jsSatisfies (env : Env) : Option String → String → Bool
  | none, _ => false
  | some v, range => env.satisfiesB v range

/-- Translation of `isVolatileDependency(volatileDependency, available)`
(src/index.js lines 187-202).  `available` is modelled as a partial map; the
strict equality `availableReference === volatileDependency.reference` compares
an `undefined` lookup result unequal to any string reference. -/
def isVolatileDependency (env : Env) (available : String → Option String)
    (d : Dep) : Bool :=
  let availableReference := available d.name
  if availableReference = some d.reference then false
  else if env.validRangeB d.reference && jsSatisfies env availableReference d.reference then
    false
  else true

/-- Test for the filesystem-path shapes dispatched on by `fetchPackage`
(src/index.js line 255). -/
def isPathRef (reference : String) : Bool :=
  reference.startsWith "/" || reference.startsWith "./" || reference.startsWith "../"

/-- Translation of `fetchPackage({name, reference})` (src/index.js lines
254-273), with the recursion made total by a fuel parameter (`none` stands for
exhausted fuel; the source recursion takes exactly one extra step on exact
versions).  The result pairs the fetched buffer, or the thrown error, with the
trace of I/O performed. -/
def fetchPackage (env : Env) : Nat → String → String →
    Option (Except String String) × List Ev
  | 0, _, _ => (none, [])
  | fuel + 1, name, reference =>
    if isPathRef reference then
      (some (env.fsRead reference), [Ev.readFs reference])
    else if env.validB reference then
      fetchPackage env fuel name (registryTarballUrl name reference)
    else
      let resp := env.http reference
      if resp.ok then (some (Except.ok resp.body), [Ev.fetchUrl reference])
      else (some (Except.error (fetchErrMsg reference)), [Ev.fetchUrl reference])

/-- Translation of `getPinnedReference({name, reference})` (src/index.js lines
275-292).  When the reference is a valid range but not an exact version the
registry metadata is fetched (one `Ev.fetchUrl` event) and the highest
satisfying version replaces the reference; with no satisfying version the
unsatisfied-range error is thrown.  Every other reference passes through with
no I/O. -/
def getPinnedReference (env : Env) (name reference : String) :
    Except String (String × String) × List Ev :=
  if env.validRangeB reference && !env.validB reference then
    let versions := env.httpJsonVersions name
    match env.maxSatisfying versions reference with
    | none => (Except.error (unsatisfiedMsg name reference), [Ev.fetchUrl (registryInfoUrl name)])
    | some v => (Except.ok (name, v), [Ev.fetchUrl (registryInfoUrl name)])
  else (Except.ok (name, reference), [])

/-- Translation of `getPackageDependencies({name, reference})` (src/index.js
lines 240-252): fetch the tarball, read `package.json` out of it with
`virtualPath = 1` via `readFileFromArchive`, parse it, and flatten the
`dependencies` object.  Tar decoding and JSON parsing are delegated to the
environment. -/
def getPackageDependencies (env : Env) (ffuel : Nat) (name reference : String) :
    Option (Except String (List Dep)) × List Ev :=
  let fr := fetchPackage env ffuel name reference
  match fr.1 with
  | none => (none, fr.2)
  | some (Except.error e) => (some (Except.error e), fr.2)
  | some (Except.ok buf) =>
    match env.parseEntries buf with
    | Except.error e => (some (Except.error e), fr.2)
    | Except.ok entries =>
      match readFileFromArchive "package.json" entries 1 with
      | Except.error e => (some (Except.error e), fr.2)
      | Except.ok content =>
        match env.parseManifestDeps content with
        | Except.error e => (some (Except.error e), fr.2)
        | Except.ok deps => (some (Except.ok deps), fr.2)

/-- The body of the `.map` over volatile dependencies inside
`getPackageDependencyTree` (src/index.js lines 209-231), sequentialized
left-to-right: bump the progress total, pin the reference, read the
subdependencies, extend a per-branch copy of `available`, tick, and recurse
(through the supplied `rec`, the tree builder at one less fuel).  The first
rejection wins, as with `Promise.all`; siblings each extend the original
`available`, never each other. -/
def getPackageDependencyTreeGo (env : Env) (ffuel : Nat)
    (rec : String → String → List Dep → (String → Option String) →
      Option (Except String Node) × List Ev) :
    List Dep → (String → Option String) →
      Option (Except String (List Node)) × List Ev
  | [], _ => (some (Except.ok []), [])
  | d :: rest, available =>
    let pin := getPinnedReference env d.name d.reference
    match pin.1 with
    | Except.error e => (some (Except.error e), Ev.paceTotal :: pin.2)
    | Except.ok (pn, pr) =>
      let sub := getPackageDependencies env ffuel pn pr
      match sub.1 with
      | none => (none, Ev.paceTotal :: (pin.2 ++ sub.2))
      | some (Except.error e) => (some (Except.error e), Ev.paceTotal :: (pin.2 ++ sub.2))
      | some (Except.ok subDeps) =>
        let subAvailable := fun x => if x = pn then some pr else available x
        let child := rec pn pr subDeps subAvailable
        match child.1 with
        | none =>
          (none, Ev.paceTotal :: (pin.2 ++ sub.2 ++ (Ev.paceTick :: child.2)))
        | some (Except.error e) =>
          (some (Except.error e), Ev.paceTotal :: (pin.2 ++ sub.2 ++ (Ev.paceTick :: child.2)))
        | some (Except.ok t) =>
          let rest' := getPackageDependencyTreeGo env ffuel rec rest available
          let evs := Ev.paceTotal :: (pin.2 ++ sub.2 ++ (Ev.paceTick :: (child.2 ++ rest'.2)))
          match rest'.1 with
          | none => (none, evs)
          | some (Except.error e) => (some (Except.error e), evs)
          | some (Except.ok ts) => (some (Except.ok (t :: ts)), evs)

/-- Translation of `getPackageDependencyTree(pace, {name, reference,
dependencies}, available)` (src/index.js lines 204-238), with the recursion
made total by a fuel parameter (`none` stands for exhausted fuel, i.e. the
divergence the source exhibits on cyclic graphs).  Dependencies already
satisfied by `available` are filtered out before any work happens. -/
def getPackageDependencyTree (env : Env) (ffuel : Nat) :
    Nat → String → String → List Dep → (String → Option String) →
      Option (Except String Node) × List Ev
  | 0, _, _, _, _ => (none, [])
  | tfuel + 1, name, reference, dependencies, available =>
    let volatiles := dependencies.filter (fun d => isVolatileDependency env available d)
    let r := getPackageDependencyTreeGo env ffuel
      (getPackageDependencyTree env ffuel tfuel) volatiles available
    match r.1 with
    | none => (none, r.2)
    | some (Except.error e) => (some (Except.error e), r.2)
    | some (Except.ok ts) => (some (Except.ok (Node.mk name reference ts)), r.2)

/-! ## TreeOptimizer: `optimizePackageTree` -/

/-- Translation of `hardDependency.dependencies.splice(hardDependency.dependencies.findIndex(d => d.name === nm))`
(src/index.js lines 314-318).  A one-argument `splice(start)` removes every
element from `start` to the end of the array; when `findIndex` misses, the
start index `-1` clamps to `length - 1`, so the last element alone is
removed. -/
def jsChildSplice (deps : List Node) (nm : String) : List Node :=
  match deps.findIdx? (fun d => d.name == nm) with
  | some i => deps.take i
  | none => deps.take (deps.length - 1)

/-- Mutation of the child object at position `ci` of the working dependency
list: its own dependency array is spliced by name, everything else is left
untouched. -/
def updChild (deps : List Node) (ci : Nat) (nm : String) : List Node :=
  match deps[ci]? with
  | some c => deps.set ci (Node.mk c.name c.reference (jsChildSplice c.dependencies nm))
  | none => deps

/-- The inner loop body of `optimizePackageTree` (src/index.js lines 300-320)
for the grandchild `sub` of the child at position `ci`: look for a same-name
entry in the current working list, append the grandchild when there is none,
and splice it out of its parent when there is none or the references agree. -/
def hoistStep (ci : Nat) (deps : List Node) (sub : Node) : List Node :=
  match deps.find? (fun d => d.name == sub.name) with
  | none => updChild (deps ++ [sub]) ci sub.name
  | some available =>
    if available.reference == sub.reference then updChild deps ci sub.name else deps

/-- The outer loop body of `optimizePackageTree` for the child at position
`ci`: fold `hoistStep` over a snapshot of that child dependency list. -/
def processChild (deps : List Node) (ci : Nat) : List Node :=
  match deps[ci]? with
  | some c => c.dependencies.foldl (hoistStep ci) deps
  | none => deps

/-- One level of `optimizePackageTree` (src/index.js lines 299-321): iterate
over a snapshot of the original children (`dependencies.slice()`), so only the
positions `0..n-1` are processed even though hoisted grandchildren are
appended behind them. -/
def optimizeLevel (children : List Node) : List Node :=
  (List.range children.length).foldl processChild children

/-- Translation of `optimizePackageTree({name, reference, dependencies})`
(src/index.js lines 294-323): children are optimized recursively bottom-up,
then the grandchildren of the node are hoisted one level by `optimizeLevel`. -/
def optimizePackageTree : Node → Node
  | .mk name reference deps =>
    .mk name reference (optimizeLevel (deps.attach.map (fun d => optimizePackageTree d.1)))
termination_by t => sizeOf t
decreasing_by
  simp only [Node.mk.sizeOf_spec]
  have := List.sizeOf_lt_of_mem d.2
  omega

/-- Unfolding equation of `optimizePackageTree` with the membership
annotations removed. -/
theorem optimizePackageTree_eq (n r : String) (deps : List Node) :
    optimizePackageTree (.mk n r deps) =
      .mk n r (optimizeLevel (deps.map optimizePackageTree)) := by
  rw [optimizePackageTree]
  congr 1
  congr 1
  exact List.attach_map_val deps optimizePackageTree

/-! ## Linker: `linkPackages` -/

/-- The lifecycle phases run by `linkPackages` (src/index.js line 169), in
order. -/
def lifecyclePhases : List String := ["preinstall", "install", "postinstall"]

/-- The bin-symlinking loop of `linkPackages` (src/index.js lines 158-166).
For the first bin entry the code logs, awaits `fs.mkdirp` on the `.bin`
directory, and then evaluates `fs.symlink(relative(binTarget, source), dest)`.
The identifier `relative` is bound nowhere in the module (the imports bind
`path`, whose `path.relative` member is never referenced), so evaluating the
first argument raises a ReferenceError before `fs.symlink` is reached: the
loop performs the mkdirp and then rejects, and no `Ev.symlink` event is ever
produced. -/
def linkBins (cwd : String) : List (String × String) →
    Option (Except String Unit) × List Ev
  | [] => (some (Except.ok ()), [])
  | _ :: _ =>
    (some (Except.error refErrMsg), [Ev.mkdirp (cwd ++ "/spm_node_modules/.bin")])

/-- The lifecycle-script loop of `linkPackages` (src/index.js lines 168-181):
for each phase with a defined script, run it with `cwd = target`; a non-zero
exit rejects and stops the remaining phases. -/
def runLifecycleScripts (env : Env) (target : String) : List String →
    Option (Except String Unit) × List Ev
  | [] => (some (Except.ok ()), [])
  | phase :: rest =>
    match env.scriptsOf target phase with
    | none => runLifecycleScripts env target rest
    | some script =>
      if env.execOk script target then
        let r := runLifecycleScripts env target rest
        (r.1, Ev.exec script target :: r.2)
      else (some (Except.error (execFailMsg script)), [Ev.exec script target])

/-- The per-child body of the `Promise.all` in `linkPackages` (src/index.js
lines 148-183), sequentialized left-to-right: recurse into the child at
`cwd/spm_node_modules/<name>` (through the supplied `rec`), then read the
child manifest and process its bin entries and lifecycle scripts.  The first
rejection wins. -/
def linkChildren (env : Env)
    (rec : Node → String → Option (Except String Unit) × List Ev)
    (cwd : String) : List Node → Option (Except String Unit) × List Ev
  | [] => (some (Except.ok ()), [])
  | child :: rest =>
    let target := cwd ++ ("/spm_node_modules/" ++ child.name)
    let r1 := rec child target
    match r1.1 with
    | none => (none, r1.2)
    | some (Except.error e) => (some (Except.error e), r1.2)
    | some (Except.ok _) =>
      let r2 := linkBins cwd (env.binOf target)
      match r2.1 with
      | none => (none, r1.2 ++ r2.2)
      | some (Except.error e) => (some (Except.error e), r1.2 ++ r2.2)
      | some (Except.ok _) =>
        let r3 := runLifecycleScripts env target lifecyclePhases
        match r3.1 with
        | none => (none, r1.2 ++ (r2.2 ++ r3.2))
        | some (Except.error e) => (some (Except.error e), r1.2 ++ (r2.2 ++ r3.2))
        | some (Except.ok _) =>
          let r4 := linkChildren env rec cwd rest
          (r4.1, r1.2 ++ (r2.2 ++ (r3.2 ++ r4.2)))

/-- The descriptor of a resolved node, as rebuilt when `linkPackages` passes
its node fields back into `getPackageDependencyTree`. -/
def depOf (c : Node) : Dep := Dep.mk c.name c.reference

/-- The fetch-and-extract step of `linkPackages` (src/index.js lines
142-146): nothing for the root node (falsy `reference`), otherwise fetch the
tarball and extract it into `cwd` through `extractNpmArchiveTo`, i.e. with
`virtualPath = 1`. -/
def fetchStage (env : Env) (ffuel : Nat) (node : Node) (cwd : String) :
    Option (Except String Unit) × List Ev :=
  if node.reference = "" then (some (Except.ok ()), [])
  else
    let pr := fetchPackage env ffuel node.name node.reference
    match pr.1 with
    | none => (none, pr.2)
    | some (Except.error e) => (some (Except.error e), pr.2)
    | some (Except.ok buf) => (some (Except.ok ()), pr.2 ++ [Ev.extractTarball buf cwd])

/-- Translation of `linkPackages(pace, {name, reference, dependencies}, cwd)`
(src/index.js lines 133-185), with the tree recursion made total by a fuel
parameter.  The function first bumps the progress total, then calls
`getPackageDependencyTree` on the node own descriptor with a fresh empty
`available` map and discards the returned tree, then (for non-root nodes,
i.e. a non-empty reference) fetches and extracts the tarball into `cwd` with
`virtualPath = 1`, then links every child, and finally ticks. -/
def linkPackages (env : Env) (ffuel tfuel : Nat) :
    Nat → Node → String → Option (Except String Unit) × List Ev
  | 0, _, _ => (none, [])
  | lfuel + 1, node, cwd =>
    let tr := getPackageDependencyTree env ffuel tfuel node.name node.reference
      (node.dependencies.map depOf) (fun _ => none)
    match tr.1 with
    | none => (none, Ev.paceTotal :: tr.2)
    | some (Except.error e) => (some (Except.error e), Ev.paceTotal :: tr.2)
    | some (Except.ok _) =>
      let fr := fetchStage env ffuel node cwd
      match fr.1 with
      | none => (none, Ev.paceTotal :: (tr.2 ++ fr.2))
      | some (Except.error e) => (some (Except.error e), Ev.paceTotal :: (tr.2 ++ fr.2))
      | some (Except.ok _) =>
        let cr := linkChildren env (linkPackages env ffuel tfuel lfuel) cwd node.dependencies
        match cr.1 with
        | none => (none, Ev.paceTotal :: (tr.2 ++ (fr.2 ++ cr.2)))
        | some (Except.error e) => (some (Except.error e), Ev.paceTotal :: (tr.2 ++ (fr.2 ++ cr.2)))
        | some (Except.ok _) =>
          (some (Except.ok ()), Ev.paceTotal :: (tr.2 ++ (fr.2 ++ (cr.2 ++ [Ev.paceTick]))))

/-- The variant of `linkPackages` with the redundant
`getPackageDependencyTree` call removed and everything else untouched, the
comparison point of the refinement claim. -/
def linkPackagesNoCall (env : Env) (ffuel : Nat) :
    Nat → Node → String → Option (Except String Unit) × List Ev
  | 0, _, _ => (none, [])
  | lfuel + 1, node, cwd =>
    let fr := fetchStage env ffuel node cwd
    match fr.1 with
    | none => (none, Ev.paceTotal :: fr.2)
    | some (Except.error e) => (some (Except.error e), Ev.paceTotal :: fr.2)
    | some (Except.ok _) =>
      let cr := linkChildren env (linkPackagesNoCall env ffuel lfuel) cwd node.dependencies
      match cr.1 with
      | none => (none, Ev.paceTotal :: (fr.2 ++ cr.2))
      | some (Except.error e) => (some (Except.error e), Ev.paceTotal :: (fr.2 ++ cr.2))
      | some (Except.ok _) =>
        (some (Except.ok ()), Ev.paceTotal :: (fr.2 ++ (cr.2 ++ [Ev.paceTick])))

/-- Translation of the main IIFE (src/index.js lines 325-352) after manifest
loading: resolve the tree from the root dependencies (the root node carrying
the empty sentinel reference), optimize it, link it at the destination path,
and exit 0 on success and 1 on any error reaching the top-level catch.
`none` stands for divergence (fuel exhaustion in the embedded recursions). -/
def installRun (env : Env) (ffuel tfuel lfuel : Nat) (cwd : String)
    (rootDeps : List Dep) : Option Nat :=
  match (getPackageDependencyTree env ffuel tfuel "" "" rootDeps (fun _ => none)).1 with
  | none => none
  | some (Except.error _) => some 1
  | some (Except.ok tree) =>
    match (linkPackages env ffuel tfuel lfuel (optimizePackageTree tree) cwd).1 with
    | none => none
    | some (Except.error _) => some 1
    | some (Except.ok _) => some 0

/-! ## Structural induction and the well-named invariant -/

/-- Structural induction principle for `Node` phrased through list
membership. -/
theorem node_ind {P : Node → Prop}
    (h : ∀ n r deps, (∀ d ∈ deps, P d) → P (Node.mk n r deps)) : ∀ t, P t
  | .mk n r deps => h n r deps (fun d hd => node_ind h d)
termination_by t => sizeOf t
decreasing_by
  simp only [Node.mk.sizeOf_spec]
  have := List.sizeOf_lt_of_mem hd
  omega

/-- Names of the nodes of a list, in order. -/
def namesOf (l : List Node) : List String := l.map Node.name

/-- Well-named trees: every node of the tree has children with pairwise
distinct names. -/
inductive WN : Node → Prop where
  | mk (name reference : String) (deps : List Node)
      (hnodup : (namesOf deps).Nodup)
      (hdeps : ∀ d ∈ deps, WN d) : WN (Node.mk name reference deps)

theorem wn_nodup (n r : String) (deps : List Node) (h : WN (Node.mk n r deps)) :
    (namesOf deps).Nodup := by
  cases h; assumption

theorem wn_children (n r : String) (deps : List Node) (h : WN (Node.mk n r deps)) :
    ∀ d ∈ deps, WN d := by
  cases h; assumption

theorem wn_leaf (n r : String) : WN (Node.mk n r []) :=
  WN.mk n r [] (by simp [namesOf]) (fun d hd => absurd hd (List.not_mem_nil d))

/-- Taking a prefix of the children preserves well-namedness. -/
theorem wn_take (n r : String) (l : List Node) (k : Nat) (h : WN (Node.mk n r l)) :
    WN (Node.mk n r (l.take k)) := by
  cases h with
  | mk _ _ _ hnodup hdeps =>
    refine WN.mk n r _ ?_ (fun d hd => hdeps d (List.take_subset k l hd))
    have he : namesOf (l.take k) = (namesOf l).take k := List.map_take Node.name l k
    rw [he]
    exact hnodup.sublist (List.take_sublist k (namesOf l))

/-- A one-argument splice always yields a prefix of the original array. -/
theorem jsChildSplice_is_take (deps : List Node) (nm : String) :
    ∃ k, jsChildSplice deps nm = deps.take k := by
  unfold jsChildSplice
  cases deps.findIdx? (fun d => d.name == nm) with
  | none => exact ⟨deps.length - 1, rfl⟩
  | some i => exact ⟨i, rfl⟩

theorem wn_splice (n r : String) (l : List Node) (nm : String)
    (h : WN (Node.mk n r l)) : WN (Node.mk n r (jsChildSplice l nm)) := by
  obtain ⟨k, hk⟩ := jsChildSplice_is_take l nm
  rw [hk]
  exact wn_take n r l k h

/-- Setting a list cell back to an element it already holds is the
identity. -/
theorem set_getElem_self {α : Type} : ∀ (l : List α) (i : Nat) (a : α),
    l[i]? = some a → l.set i a = l
  | [], i, a, h => by simp at h
  | x :: xs, 0, a, h => by
    simp only [List.getElem?_cons_zero, Option.some.injEq] at h
    simp [h]
  | x :: xs, i + 1, a, h => by
    simp only [List.getElem?_cons_succ] at h
    simp [set_getElem_self xs i a h]

/-- Splicing the dependency array of the child at `ci` does not change the
names at the current level. -/
theorem updChild_namesOf (deps : List Node) (ci : Nat) (nm : String) :
    namesOf (updChild deps ci nm) = namesOf deps := by
  unfold updChild
  cases h : deps[ci]? with
  | none => rfl
  | some c =>
    show namesOf (deps.set ci (Node.mk c.name c.reference (jsChildSplice c.dependencies nm))) = _
    unfold namesOf
    rw [List.map_set]
    apply set_getElem_self
    rw [List.getElem?_map, h]
    rfl

theorem updChild_wn (deps : List Node) (ci : Nat) (nm : String)
    (h : ∀ d ∈ deps, WN d) : ∀ d ∈ updChild deps ci nm, WN d := by
  unfold updChild
  cases hi : deps[ci]? with
  | none => exact h
  | some c =>
    intro d hd
    rcases List.mem_or_eq_of_mem_set hd with h1 | h1
    · exact h d h1
    · subst h1
      have hc : WN c := h c (List.getElem?_mem hi)
      cases c with
      | mk cn cr cd =>
        simp only [Node.name, Node.reference, Node.dependencies]
        exact wn_splice cn cr cd nm hc

/-- Invariant carried through one level of the optimizer: distinct names at
the level and well-named subtrees. -/
def LevelInv (l : List Node) : Prop := (namesOf l).Nodup ∧ ∀ d ∈ l, WN d

theorem hoistStep_inv (ci : Nat) (deps : List Node) (sub : Node)
    (hinv : LevelInv deps) (hsub : WN sub) : LevelInv (hoistStep ci deps sub) := by
  unfold hoistStep
  cases hfind : deps.find? (fun d => d.name == sub.name) with
  | some available =>
    by_cases href : (available.reference == sub.reference) = true
    · simp only [href, if_true]
      exact ⟨by rw [updChild_namesOf]; exact hinv.1, updChild_wn deps ci sub.name hinv.2⟩
    · simp only [href, if_false]
      exact hinv
  | none =>
    have hnotmem : sub.name ∉ namesOf deps := by
      have hall := List.find?_eq_none.mp hfind
      intro hmem
      rcases List.mem_map.mp hmem with ⟨d, hd, hdn⟩
      exact absurd (by simp [hdn] : (d.name == sub.name) = true) (hall d hd)
    have hnodup : (namesOf (deps ++ [sub])).Nodup := by
      unfold namesOf
      rw [List.map_append]
      refine List.Nodup.append hinv.1 (List.nodup_singleton _) ?_
      intro x hx hx'
      simp only [List.map_cons, List.map_nil, List.mem_singleton] at hx'
      subst hx'
      exact hnotmem hx
    have hwn : ∀ d ∈ deps ++ [sub], WN d := by
      intro d hd
      rcases List.mem_append.mp hd with h1 | h1
      · exact hinv.2 d h1
      · simp only [List.mem_singleton] at h1
        subst h1
        exact hsub
    exact ⟨by rw [updChild_namesOf]; exact hnodup, updChild_wn _ ci sub.name hwn⟩

theorem foldl_hoist_inv (ci : Nat) : ∀ (subs : List Node) (deps : List Node),
    LevelInv deps → (∀ s ∈ subs, WN s) →
    LevelInv (subs.foldl (hoistStep ci) deps) := by
  intro subs
  induction subs with
  | nil => intro deps h _; exact h
  | cons s rest ih =>
    intro deps h hs
    simp only [List.foldl_cons]
    exact ih _ (hoistStep_inv ci deps s h (hs s (by simp)))
      (fun x hx => hs x (by simp [hx]))

theorem processChild_inv (deps : List Node) (ci : Nat) (h : LevelInv deps) :
    LevelInv (processChild deps ci) := by
  unfold processChild
  cases hc : deps[ci]? with
  | none => exact h
  | some c =>
    have hwc : WN c := h.2 c (List.getElem?_mem hc)
    cases c with
    | mk cn cr cd =>
      simp only [Node.dependencies]
      exact foldl_hoist_inv ci cd deps h (wn_children cn cr cd hwc)

theorem foldl_process_inv : ∀ (idxs : List Nat) (deps : List Node),
    LevelInv deps → LevelInv (idxs.foldl processChild deps) := by
  intro idxs
  induction idxs with
  | nil => intro deps h; exact h
  | cons i rest ih =>
    intro deps h
    simp only [List.foldl_cons]
    exact ih _ (processChild_inv deps i h)

theorem optimizeLevel_inv (children : List Node) (h : LevelInv children) :
    LevelInv (optimizeLevel children) :=
  foldl_process_inv (List.range children.length) children h

/-- Optimization does not change the name of a node. -/
theorem optimize_name (t : Node) : (optimizePackageTree t).name = t.name := by
  cases t with
  | mk n r deps => rw [optimizePackageTree_eq]; rfl

/-- The optimizer preserves well-namedness of the whole tree. -/
theorem wn_optimize : ∀ t, WN t → WN (optimizePackageTree t) := by
  apply node_ind (P := fun t => WN t → WN (optimizePackageTree t))
  intro n r deps ih hwn
  rw [optimizePackageTree_eq]
  have hinv : LevelInv (deps.map optimizePackageTree) := by
    constructor
    · have he : namesOf (deps.map optimizePackageTree) = namesOf deps := by
        unfold namesOf
        rw [List.map_map]
        exact List.map_congr_left (fun d _ => optimize_name d)
      rw [he]
      exact wn_nodup n r deps hwn
    · intro d hd
      rcases List.mem_map.mp hd with ⟨d0, hd0, rfl⟩
      exact ih d0 hd0 (wn_children n r deps hwn d0 hd0)
  have hlvl := optimizeLevel_inv (deps.map optimizePackageTree) hinv
  exact WN.mk n r _ hlvl.1 hlvl.2

/-! ## Event classification and effect lemmas -/

/-- Events that change the on-disk layout or spawn processes: tarball
extraction, directory creation, symlink creation and lifecycle script runs.
HTTP fetches, file reads and progress updates are excluded. -/
def isDiskEv : Ev → Bool
  | .extractTarball _ _ => true
  | .mkdirp _ => true
  | .symlink _ _ => true
  | .exec _ _ => true
  | _ => false

/-- Symlink creation events. -/
def isSymlinkEv : Ev → Bool
  | .symlink _ _ => true
  | _ => false

theorem no_disk_no_symlink (ev : Ev) (h : isDiskEv ev = false) :
    isSymlinkEv ev = false := by
  cases ev <;> simp [isDiskEv, isSymlinkEv] at *

/-- `fetchPackage` performs no disk-layout effect: its trace holds only
fetches and file reads. -/
theorem fetchPackage_no_disk (env : Env) : ∀ (fuel : Nat) (n r : String),
    ∀ ev ∈ (fetchPackage env fuel n r).2, isDiskEv ev = false := by
  intro fuel
  induction fuel with
  | zero => intro n r ev h; simp [fetchPackage] at h
  | succ fuel ih =>
    intro n r ev h
    rw [fetchPackage] at h
    cases hp : isPathRef r with
    | true => simp [hp] at h; subst h; rfl
    | false =>
      cases hv : env.validB r with
      | true =>
        simp only [hp, hv, Bool.false_eq_true, if_false, if_true] at h
        exact ih n (registryTarballUrl n r) ev h
      | false =>
        cases ho : (env.http r).ok with
        | true => simp [hp, hv, ho] at h; subst h; rfl
        | false => simp [hp, hv, ho] at h; subst h; rfl

theorem getPinnedReference_no_disk (env : Env) (n r : String) :
    ∀ ev ∈ (getPinnedReference env n r).2, isDiskEv ev = false := by
  intro ev h
  simp only [getPinnedReference] at h
  split at h
  · split at h <;> (simp at h; subst h; rfl)
  · simp at h

theorem getPackageDependencies_no_disk (env : Env) (ffuel : Nat) (n r : String) :
    ∀ ev ∈ (getPackageDependencies env ffuel n r).2, isDiskEv ev = false := by
  intro ev h
  simp only [getPackageDependencies] at h
  split at h <;>
    first
      | exact fetchPackage_no_disk env ffuel n r ev h
      | (split at h <;>
          first
            | exact fetchPackage_no_disk env ffuel n r ev h
            | (split at h <;>
                first
                  | exact fetchPackage_no_disk env ffuel n r ev h
                  | (split at h <;> exact fetchPackage_no_disk env ffuel n r ev h)))

theorem go_no_disk (env : Env) (ffuel : Nat)
    (rec : String → String → List Dep → (String → Option String) →
      Option (Except String Node) × List Ev)
    (hrec : ∀ pn pr sd av, ∀ ev ∈ (rec pn pr sd av).2, isDiskEv ev = false) :
    ∀ (deps : List Dep) (available : String → Option String),
      ∀ ev ∈ (getPackageDependencyTreeGo env ffuel rec deps available).2,
        isDiskEv ev = false := by
  intro deps
  induction deps with
  | nil => intro av ev h; simp [getPackageDependencyTreeGo] at h
  | cons d rest ih =>
    intro av ev h
    simp only [getPackageDependencyTreeGo] at h
    have hpin := getPinnedReference_no_disk env d.name d.reference
    rcases hp : (getPinnedReference env d.name d.reference).1 with e | ⟨pn, pr⟩ <;>
      simp only [hp] at h
    · rcases List.mem_cons.mp h with h | h
      · subst h; rfl
      · exact hpin ev h
    · have hsub := getPackageDependencies_no_disk env ffuel pn pr
      rcases hs : (getPackageDependencies env ffuel pn pr).1 with _ | sr <;>
        simp only [hs] at h
      · rcases List.mem_cons.mp h with h | h
        · subst h; rfl
        · rcases List.mem_append.mp h with h | h
          · exact hpin ev h
          · exact hsub ev h
      · rcases sr with e | subDeps <;> simp only [] at h
        · rcases List.mem_cons.mp h with h | h
          · subst h; rfl
          · rcases List.mem_append.mp h with h | h
            · exact hpin ev h
            · exact hsub ev h
        · have hchild := hrec pn pr subDeps
            (fun x => if x = pn then some pr else av x)
          rcases hc : (rec pn pr subDeps (fun x => if x = pn then some pr else av x)).1
              with _ | cr <;> simp only [hc] at h
          · rcases List.mem_cons.mp h with h | h
            · subst h; rfl
            · rcases List.mem_append.mp h with h | h
              · rcases List.mem_append.mp h with h | h
                · exact hpin ev h
                · exact hsub ev h
              · rcases List.mem_cons.mp h with h | h
                · subst h; rfl
                · exact hchild ev h
          · rcases cr with e | t
            · simp only [] at h
              rcases List.mem_cons.mp h with h | h
              · subst h; rfl
              · rcases List.mem_append.mp h with h | h
                · rcases List.mem_append.mp h with h | h
                  · exact hpin ev h
                  · exact hsub ev h
                · rcases List.mem_cons.mp h with h | h
                  · subst h; rfl
                  · exact hchild ev h
            · have hrest := ih av
              have hmem : ev ∈ Ev.paceTotal ::
                  ((getPinnedReference env d.name d.reference).2 ++
                    (getPackageDependencies env ffuel pn pr).2 ++
                    (Ev.paceTick ::
                      ((rec pn pr subDeps (fun x => if x = pn then some pr else av x)).2 ++
                        (getPackageDependencyTreeGo env ffuel rec rest av).2))) := by
                rcases hrr : (getPackageDependencyTreeGo env ffuel rec rest av).1
                    with _ | rr <;> simp only [hrr] at h
                · exact h
                · rcases rr with e | ts <;> simp only [] at h <;> exact h
              rcases List.mem_cons.mp hmem with h1 | h1
              · subst h1; rfl
              · rcases List.mem_append.mp h1 with h1 | h1
                · rcases List.mem_append.mp h1 with h1 | h1
                  · exact hpin ev h1
                  · exact hsub ev h1
                · rcases List.mem_cons.mp h1 with h1 | h1
                  · subst h1; rfl
                  · rcases List.mem_append.mp h1 with h1 | h1
                    · exact hchild ev h1
                    · exact hrest ev h1

/-- The resolver performs no disk-layout effect at all. -/
theorem gpdt_no_disk (env : Env) (ffuel : Nat) : ∀ (tfuel : Nat) (n r : String)
    (deps : List Dep) (av : String → Option String),
    ∀ ev ∈ (getPackageDependencyTree env ffuel tfuel n r deps av).2,
      isDiskEv ev = false := by
  intro tfuel
  induction tfuel with
  | zero => intro n r deps av ev h; simp [getPackageDependencyTree] at h
  | succ tf ih =>
    intro n r deps av ev h
    simp only [getPackageDependencyTree] at h
    have hgo := go_no_disk env ffuel (getPackageDependencyTree env ffuel tf)
      (fun pn pr sd av2 => ih pn pr sd av2)
      (deps.filter (fun d => isVolatileDependency env av d)) av
    rcases hr : (getPackageDependencyTreeGo env ffuel
        (getPackageDependencyTree env ffuel tf)
        (deps.filter (fun d => isVolatileDependency env av d)) av).1
        with _ | rr <;> simp only [hr] at h
    · exact hgo ev h
    · rcases rr with e | ts <;> simp only [] at h <;> exact hgo ev h

/-! ## Comparing `linkPackages` with the call-free variant -/

/-- Success of the redundant resolver calls: at every node of the tree the
`getPackageDependencyTree` call made by `linkPackages` (empty `available`,
result discarded) returns a tree rather than an error or divergence. -/
inductive GOk (env : Env) (ffuel tfuel : Nat) : Node → Prop where
  | mk (name reference : String) (deps : List Node)
      (hcall : ∃ t, (getPackageDependencyTree env ffuel tfuel name reference
        (deps.map depOf) (fun _ => none)).1 =
          some (Except.ok t))
      (hchildren : ∀ c ∈ deps, GOk env ffuel tfuel c) :
      GOk env ffuel tfuel (Node.mk name reference deps)

/-- Relation between a run of the original linker and a run of the variant:
same outcome, the same disk-effect subtrace, and the variant trace embeds into
the original one (the extra events being the redundant resolver effects). -/
def LinkRel (x y : Option (Except String Unit) × List Ev) : Prop :=
  x.1 = y.1 ∧ x.2.filter isDiskEv = y.2.filter isDiskEv ∧ List.Sublist y.2 x.2

theorem linkChildren_rel (env : Env)
    (rec1 rec2 : Node → String → Option (Except String Unit) × List Ev)
    (cwd : String) : ∀ (l : List Node),
    (∀ c ∈ l, ∀ tgt, LinkRel (rec1 c tgt) (rec2 c tgt)) →
    LinkRel (linkChildren env rec1 cwd l) (linkChildren env rec2 cwd l) := by
  intro l
  induction l with
  | nil => intro _; exact ⟨rfl, rfl, List.Sublist.refl _⟩
  | cons child rest ih =>
    intro hr
    obtain ⟨hc1, hc2, hc3⟩ :=
      hr child (by simp) (cwd ++ ("/spm_node_modules/" ++ child.name))
    have hrest := ih (fun c hcm tgt => hr c (by simp [hcm]) tgt)
    simp only [linkChildren]
    rcases h1 : (rec2 child (cwd ++ ("/spm_node_modules/" ++ child.name))).1 with _ | er
    · simp only [hc1, h1]
      exact ⟨rfl, hc2, hc3⟩
    · rcases er with e | u
      · simp only [hc1, h1]
        exact ⟨rfl, hc2, hc3⟩
      · simp only [hc1, h1]
        rcases h2 : (linkBins cwd
            (env.binOf (cwd ++ ("/spm_node_modules/" ++ child.name)))).1 with _ | er2
        · simp only [h2]
          refine ⟨rfl, ?_, List.Sublist.append hc3 (List.Sublist.refl _)⟩
          simp only [List.filter_append, hc2]
        · rcases er2 with e2 | u2
          · simp only [h2]
            refine ⟨rfl, ?_, List.Sublist.append hc3 (List.Sublist.refl _)⟩
            simp only [List.filter_append, hc2]
          · simp only [h2]
            rcases h3 : (runLifecycleScripts env
                (cwd ++ ("/spm_node_modules/" ++ child.name)) lifecyclePhases).1
                with _ | er3
            · simp only [h3]
              refine ⟨rfl, ?_, ?_⟩
              · simp only [List.filter_append, hc2]
              · exact List.Sublist.append hc3
                  (List.Sublist.append (List.Sublist.refl _) (List.Sublist.refl _))
            · rcases er3 with e3 | u3
              · simp only [h3]
                refine ⟨rfl, ?_, ?_⟩
                · simp only [List.filter_append, hc2]
                · exact List.Sublist.append hc3
                    (List.Sublist.append (List.Sublist.refl _) (List.Sublist.refl _))
              · simp only [h3]
                obtain ⟨hr1, hr2, hr3⟩ := hrest
                refine ⟨hr1, ?_, ?_⟩
                · simp only [List.filter_append, hc2, hr2]
                · exact List.Sublist.append hc3
                    (List.Sublist.append (List.Sublist.refl _)
                      (List.Sublist.append (List.Sublist.refl _) hr3))

theorem isDiskEv_paceTotal : isDiskEv Ev.paceTotal = false := rfl

theorem linkPackages_rel (env : Env) (ffuel tfuel : Nat) : ∀ (lfuel : Nat)
    (t : Node) (cwd : String), GOk env ffuel tfuel t →
    LinkRel (linkPackages env ffuel tfuel lfuel t cwd)
      (linkPackagesNoCall env ffuel lfuel t cwd) := by
  intro lfuel
  induction lfuel with
  | zero => intro t cwd _; exact ⟨rfl, rfl, List.Sublist.refl _⟩
  | succ lf ih =>
    intro t cwd hok
    cases hok with
    | mk name reference deps hcall hchildren =>
      obtain ⟨tr0, htr⟩ := hcall
      have hTdisk : ∀ ev ∈ (getPackageDependencyTree env ffuel tfuel name reference
          (deps.map depOf) (fun _ => none)).2, isDiskEv ev = false :=
        gpdt_no_disk env ffuel tfuel name reference (deps.map depOf) (fun _ => none)
      have hTfilter : (getPackageDependencyTree env ffuel tfuel name reference
          (deps.map depOf) (fun _ => none)).2.filter isDiskEv = [] :=
        List.filter_eq_nil_iff.mpr (fun a ha => by simp [hTdisk a ha])
      obtain ⟨hcr1, hcr2, hcr3⟩ := linkChildren_rel env (linkPackages env ffuel tfuel lf)
        (linkPackagesNoCall env ffuel lf) cwd deps
        (fun c hc tgt => ih c tgt (hchildren c hc))
      simp only [linkPackages, linkPackagesNoCall, Node.name, Node.reference,
        Node.dependencies, htr]
      rcases hf : (fetchStage env ffuel (Node.mk name reference deps) cwd).1 with _ | fe
      · simp only [hf]
        refine ⟨rfl, ?_, ?_⟩
        · simp [List.filter_cons, List.filter_append, hTfilter, isDiskEv_paceTotal]
        · exact List.Sublist.cons₂ _ (List.sublist_append_right _ _)
      · rcases fe with e | u
        · simp only [hf]
          refine ⟨rfl, ?_, ?_⟩
          · simp [List.filter_cons, List.filter_append, hTfilter, isDiskEv_paceTotal]
          · exact List.Sublist.cons₂ _ (List.sublist_append_right _ _)
        · simp only [hf]
          rcases hc : (linkChildren env (linkPackagesNoCall env ffuel lf) cwd deps).1
              with _ | cr
          · simp only [hcr1, hc]
            refine ⟨rfl, ?_, ?_⟩
            · simp [List.filter_cons, List.filter_append, hTfilter, hcr2,
                isDiskEv_paceTotal]
            · exact List.Sublist.cons₂ _ (List.Sublist.trans
                (List.Sublist.append (List.Sublist.refl _) hcr3)
                (List.sublist_append_right _ _))
          · rcases cr with e | u2 <;> simp only [hcr1, hc]
            · refine ⟨rfl, ?_, ?_⟩
              · simp [List.filter_cons, List.filter_append, hTfilter, hcr2,
                  isDiskEv_paceTotal]
              · exact List.Sublist.cons₂ _ (List.Sublist.trans
                  (List.Sublist.append (List.Sublist.refl _) hcr3)
                  (List.sublist_append_right _ _))
            · refine ⟨rfl, ?_, ?_⟩
              · simp [List.filter_cons, List.filter_append, hTfilter, hcr2,
                  isDiskEv_paceTotal]
              · exact List.Sublist.cons₂ _ (List.Sublist.trans
                  (List.Sublist.append (List.Sublist.refl _)
                    (List.Sublist.append hcr3 (List.Sublist.refl _)))
                  (List.sublist_append_right _ _))

/-! ## The linker never creates a symlink -/

theorem linkBins_no_symlink (cwd : String) (bins : List (String × String)) :
    ∀ ev ∈ (linkBins cwd bins).2, isSymlinkEv ev = false := by
  intro ev h
  cases bins with
  | nil => simp [linkBins] at h
  | cons b rest =>
    simp only [linkBins, List.mem_singleton] at h
    subst h
    rfl

theorem runScripts_no_symlink (env : Env) (target : String) : ∀ (phs : List String),
    ∀ ev ∈ (runLifecycleScripts env target phs).2, isSymlinkEv ev = false := by
  intro phs
  induction phs with
  | nil => intro ev h; simp [runLifecycleScripts] at h
  | cons ph rest ih =>
    intro ev h
    simp only [runLifecycleScripts] at h
    rcases hs : env.scriptsOf target ph with _ | script <;> simp only [hs] at h
    · exact ih ev h
    · by_cases he : env.execOk script target = true
      · simp only [he, if_true] at h
        rcases List.mem_cons.mp h with h | h
        · subst h; rfl
        · exact ih ev h
      · simp only [he, if_false, Bool.false_eq_true] at h
        simp only [List.mem_singleton] at h
        subst h
        rfl

theorem fetchStage_no_symlink (env : Env) (ffuel : Nat) (node : Node) (cwd : String) :
    ∀ ev ∈ (fetchStage env ffuel node cwd).2, isSymlinkEv ev = false := by
  intro ev h
  simp only [fetchStage] at h
  by_cases hr : node.reference = ""
  · simp [hr] at h
  · simp only [hr, if_neg hr] at h
    rcases hf : (fetchPackage env ffuel node.name node.reference).1 with _ | fe <;>
      simp only [hf] at h
    · exact no_disk_no_symlink ev (fetchPackage_no_disk env ffuel _ _ ev h)
    · rcases fe with e | buf <;> simp only [] at h
      · exact no_disk_no_symlink ev (fetchPackage_no_disk env ffuel _ _ ev h)
      · rcases List.mem_append.mp h with h | h
        · exact no_disk_no_symlink ev (fetchPackage_no_disk env ffuel _ _ ev h)
        · simp only [List.mem_singleton] at h
          subst h
          rfl

theorem linkChildren_no_symlink (env : Env)
    (rec : Node → String → Option (Except String Unit) × List Ev)
    (cwd : String)
    (hrec : ∀ c tgt, ∀ ev ∈ (rec c tgt).2, isSymlinkEv ev = false) :
    ∀ (l : List Node), ∀ ev ∈ (linkChildren env rec cwd l).2, isSymlinkEv ev = false := by
  intro l
  induction l with
  | nil => intro ev h; simp [linkChildren] at h
  | cons child rest ih =>
    intro ev h
    simp only [linkChildren] at h
    rcases h1 : (rec child (cwd ++ ("/spm_node_modules/" ++ child.name))).1 with _ | er <;>
      simp only [h1] at h
    · exact hrec child _ ev h
    · rcases er with e | u <;> simp only [] at h
      · exact hrec child _ ev h
      · rcases h2 : (linkBins cwd
            (env.binOf (cwd ++ ("/spm_node_modules/" ++ child.name)))).1 with _ | er2 <;>
          simp only [h2] at h
        · rcases List.mem_append.mp h with h | h
          · exact hrec child _ ev h
          · exact linkBins_no_symlink cwd _ ev h
        · rcases er2 with e2 | u2 <;> simp only [] at h
          · rcases List.mem_append.mp h with h | h
            · exact hrec child _ ev h
            · exact linkBins_no_symlink cwd _ ev h
          · rcases h3 : (runLifecycleScripts env
                (cwd ++ ("/spm_node_modules/" ++ child.name)) lifecyclePhases).1
                with _ | er3 <;> simp only [h3] at h
            · rcases List.mem_append.mp h with h | h
              · exact hrec child _ ev h
              · rcases List.mem_append.mp h with h | h
                · exact linkBins_no_symlink cwd _ ev h
                · exact runScripts_no_symlink env _ lifecyclePhases ev h
            · rcases er3 with e3 | u3 <;> simp only [] at h
              · rcases List.mem_append.mp h with h | h
                · exact hrec child _ ev h
                · rcases List.mem_append.mp h with h | h
                  · exact linkBins_no_symlink cwd _ ev h
                  · exact runScripts_no_symlink env _ lifecyclePhases ev h
              · rcases List.mem_append.mp h with h | h
                · exact hrec child _ ev h
                · rcases List.mem_append.mp h with h | h
                  · exact linkBins_no_symlink cwd _ ev h
                  · rcases List.mem_append.mp h with h | h
                    · exact runScripts_no_symlink env _ lifecyclePhases ev h
                    · exact ih ev h

/-- No run of the linker ever emits a symlink event: the creation site always
raises the `relative` ReferenceError first. -/
theorem linkPackages_no_symlink (env : Env) (ffuel tfuel : Nat) : ∀ (lfuel : Nat)
    (t : Node) (cwd : String),
    ∀ ev ∈ (linkPackages env ffuel tfuel lfuel t cwd).2, isSymlinkEv ev = false := by
  intro lfuel
  induction lfuel with
  | zero => intro t cwd ev h; simp [linkPackages] at h
  | succ lf ih =>
    intro t cwd ev h
    simp only [linkPackages] at h
    have hT : ∀ x ∈ (getPackageDependencyTree env ffuel tfuel t.name t.reference
        (t.dependencies.map depOf) (fun _ => none)).2, isSymlinkEv x = false :=
      fun x hx => no_disk_no_symlink x
        (gpdt_no_disk env ffuel tfuel t.name t.reference (t.dependencies.map depOf)
          (fun _ => none) x hx)
    rcases ht : (getPackageDependencyTree env ffuel tfuel t.name t.reference
        (t.dependencies.map depOf) (fun _ => none)).1 with _ | tr <;>
      simp only [ht] at h
    · rcases List.mem_cons.mp h with h | h
      · subst h; rfl
      · exact hT ev h
    · rcases tr with e | t0 <;> simp only [] at h
      · rcases List.mem_cons.mp h with h | h
        · subst h; rfl
        · exact hT ev h
      · rcases hf : (fetchStage env ffuel t cwd).1 with _ | fe <;> simp only [hf] at h
        · rcases List.mem_cons.mp h with h | h
          · subst h; rfl
          · rcases List.mem_append.mp h with h | h
            · exact hT ev h
            · exact fetchStage_no_symlink env ffuel t cwd ev h
        · rcases fe with e | u <;> simp only [] at h
          · rcases List.mem_cons.mp h with h | h
            · subst h; rfl
            · rcases List.mem_append.mp h with h | h
              · exact hT ev h
              · exact fetchStage_no_symlink env ffuel t cwd ev h
          · have hch := linkChildren_no_symlink env (linkPackages env ffuel tfuel lf) cwd
              (fun c tgt => ih c tgt) t.dependencies
            rcases hc : (linkChildren env (linkPackages env ffuel tfuel lf) cwd
                t.dependencies).1 with _ | cr <;> simp only [hc] at h
            · rcases List.mem_cons.mp h with h | h
              · subst h; rfl
              · rcases List.mem_append.mp h with h | h
                · exact hT ev h
                · rcases List.mem_append.mp h with h | h
                  · exact fetchStage_no_symlink env ffuel t cwd ev h
                  · exact hch ev h
            · rcases cr with e | u2 <;> simp only [] at h
              · rcases List.mem_cons.mp h with h | h
                · subst h; rfl
                · rcases List.mem_append.mp h with h | h
                  · exact hT ev h
                  · rcases List.mem_append.mp h with h | h
                    · exact fetchStage_no_symlink env ffuel t cwd ev h
                    · exact hch ev h
              · rcases List.mem_cons.mp h with h | h
                · subst h; rfl
                · rcases List.mem_append.mp h with h | h
                  · exact hT ev h
                  · rcases List.mem_append.mp h with h | h
                    · exact fetchStage_no_symlink env ffuel t cwd ev h
                    · rcases List.mem_append.mp h with h | h
                      · exact hch ev h
                      · simp only [List.mem_singleton] at h
                        subst h
                        rfl

/-! ## String occurrence and message distinguishability -/

theorem occursIn_mid (a s b : String) : occursIn s (a ++ (s ++ b)) :=
  ⟨a.data, b.data, by simp [String.data_append]⟩

theorem occursIn_mid3 (a b c s d : String) :
    occursIn s (a ++ (b ++ (c ++ (s ++ d)))) :=
  ⟨(a ++ (b ++ c)).data, d.data, by simp [String.data_append]⟩

theorem msg_char_lit (p rest : String) (i : Nat) (hi : i < p.data.length) :
    (p ++ rest).data[i]? = p.data[i]? := by
  rw [String.data_append]
  exact List.getElem?_append_left hi

/-- The archive not-found message is distinguishable from the fetch-error
message, whatever strings they name. -/
theorem notFound_ne_fetch (f r : String) :
    (notFoundMsg f == fetchErrMsg r) = false := by
  apply beq_eq_false_iff_ne.mpr
  intro he
  have h1 : (notFoundMsg f).data[10]? = some 'i' := by
    unfold notFoundMsg
    rw [msg_char_lit "Couldn\x27t find \x22" (f ++ "\x22 inside the archive") 10 (by decide)]
    decide
  have h2 : (fetchErrMsg r).data[10]? = some 'e' := by
    unfold fetchErrMsg
    rw [msg_char_lit "Couldn\x27t fetch package \x22" (r ++ "\x22") 10 (by decide)]
    decide
  rw [he, h2] at h1
  simp at h1

/-- The archive not-found message is distinguishable from the
unsatisfied-range message, whatever strings they name. -/
theorem notFound_ne_unsat (f n r : String) :
    (notFoundMsg f == unsatisfiedMsg n r) = false := by
  apply beq_eq_false_iff_ne.mpr
  intro he
  have h1 : (notFoundMsg f).data[14]? = some '\x22' := by
    unfold notFoundMsg
    rw [msg_char_lit "Couldn\x27t find \x22" (f ++ "\x22 inside the archive") 14 (by decide)]
    decide
  have h2 : (unsatisfiedMsg n r).data[14]? = some 'a' := by
    unfold unsatisfiedMsg
    rw [msg_char_lit "Couldn\x27t find a version matching \x22"
      (r ++ ("\x22 for package \x22" ++ (n ++ "\x22"))) 14 (by decide)]
    decide
  rw [he, h2] at h1
  simp at h1

/-! ## Concrete environments and inputs used by the witnesses -/

/-- Environment in which every reference looks like a range that no published
version satisfies. -/
def envRange : Env where
  validB := fun _ => false
  validRangeB := fun _ => true
  satisfiesB := fun _ _ => false
  maxSatisfying := fun _ _ => none
  fsRead := fun _ => Except.ok ""
  http := fun _ => { ok := true, body := "tarball" }
  httpJsonVersions := fun _ => []
  parseEntries := fun _ => Except.ok [{ header := "package/package.json", content := "manifest" }]
  parseManifestDeps := fun _ => Except.ok []
  binOf := fun _ => []
  scriptsOf := fun _ _ => none
  execOk := fun _ _ => true

/-- Environment in which every reference is an exact version. -/
def envExact : Env where
  validB := fun _ => true
  validRangeB := fun _ => true
  satisfiesB := fun _ _ => true
  maxSatisfying := fun vs _ => vs.head?
  fsRead := fun _ => Except.ok ""
  http := fun _ => { ok := true, body := "tarball" }
  httpJsonVersions := fun _ => []
  parseEntries := fun _ => Except.ok [{ header := "package/package.json", content := "manifest" }]
  parseManifestDeps := fun _ => Except.ok []
  binOf := fun _ => []
  scriptsOf := fun _ _ => none
  execOk := fun _ _ => true

/-- Environment in which every installed package declares one bin entry. -/
def envBin : Env where
  validB := fun _ => false
  validRangeB := fun _ => false
  satisfiesB := fun _ _ => false
  maxSatisfying := fun _ _ => none
  fsRead := fun _ => Except.ok ""
  http := fun _ => { ok := true, body := "tarball" }
  httpJsonVersions := fun _ => []
  parseEntries := fun _ => Except.ok [{ header := "package/package.json", content := "manifest" }]
  parseManifestDeps := fun _ => Except.ok []
  binOf := fun _ => [("tool", "cli.js")]
  scriptsOf := fun _ _ => none
  execOk := fun _ _ => true

/-- A root with one dependency, used to drive the linker into the bin loop. -/
def nodeBin : Node := Node.mk "root" "" [Node.mk "dep" "" []]

/-- A childless root node. -/
def soloNode : Node := Node.mk "solo" "" []

/-- An archive with a single entry that is not `package.json`. -/
def entriesW : List TarEntry := [{ header := "package/other.txt", content := "zzz" }]

/-- A well-named tree with a duplicate grandchild, the classic hoisting
example. -/
def treeW : Node :=
  Node.mk "root" ""
    [Node.mk "a" "1" [Node.mk "c" "1" []],
     Node.mk "b" "1" [Node.mk "c" "1" []]]

theorem treeW_wn : WN treeW := by
  have hc : WN (Node.mk "c" "1" []) := wn_leaf "c" "1"
  have ha : WN (Node.mk "a" "1" [Node.mk "c" "1" []]) :=
    WN.mk _ _ _ (by decide) (by
      intro d hd
      simp only [List.mem_singleton] at hd
      subst hd
      exact hc)
  have hb : WN (Node.mk "b" "1" [Node.mk "c" "1" []]) :=
    WN.mk _ _ _ (by decide) (by
      intro d hd
      simp only [List.mem_singleton] at hd
      subst hd
      exact hc)
  refine WN.mk _ _ _ (by decide) ?_
  intro d hd
  rcases List.mem_cons.mp hd with rfl | hd
  · exact ha
  · simp only [List.mem_singleton] at hd
    subst hd
    exact hb

/-! ## Claims -/

/-- Claim C1.  The claim states that both the tarball reader and the
extractor strip an entry header name by first removing all leading slash
characters and then removing the first `stripN` components.  The code does
not: `getFileName` assigns the slash-stripped string to the stray undeclared
identifier `parsedEntryName` and then loops over the original name, so a
header name with a leading slash keeps it and the slash counts as a component
separator.  At the failing input `"/package/index.js"` with `stripN = 1` the
code produces `"package/index.js"` while the specified stripping produces
`"index.js"`. -/
theorem claim_C1 :
    getFileName "/package/index.js" 1 = some "package/index.js"
    ∧ specStripName "/package/index.js" 1 = some "index.js"
    ∧ (getFileName "/package/index.js" 1 == specStripName "/package/index.js" 1) = false := by
  decide

/-- Claim C2.  The claim states that hoisting or subsuming a grandchild
removes exactly the one same-name entry from the child dependency list.  The
code calls `splice` with a single argument, which removes the found entry and
every entry after it.  In the tree below, hoisting `g` out of `c` also
silently deletes the unrelated entry `x@1`, which the claim (and the
name-conflict rule) requires to stay: the optimized tree has `c` with no
children at all. -/
theorem claim_C2 :
    optimizePackageTree (Node.mk "root" ""
      [Node.mk "c" "1" [Node.mk "g" "1" [], Node.mk "x" "1" []],
       Node.mk "x" "2" []]) =
    Node.mk "root" ""
      [Node.mk "c" "1" [], Node.mk "x" "2" [], Node.mk "g" "1" []] := by
  simp only [optimizePackageTree_eq, List.map_cons, List.map_nil]
  rfl

/-- Claim C3.  The claim states that for every bin entry the linker creates a
symlink at `cwd/spm_node_modules/.bin/<binName>` with a relative target.  The
code cannot: the symlink call reads the unbound identifier `relative`
(src/index.js line 165; only `path` is imported and `path.relative` is never
referenced), so the first bin entry raises a ReferenceError after the mkdirp.
Accordingly no run of the linker ever emits a symlink event, and a concrete
run over a dependency with a bin map rejects with the ReferenceError
message. -/
theorem claim_C3 :
    (∀ (env : Env) (ffuel tfuel lfuel : Nat) (t : Node) (cwd : String),
      (linkPackages env ffuel tfuel lfuel t cwd).2.filter isSymlinkEv = [])
    ∧ (linkPackages envBin 1 2 2 nodeBin "/app").1 = some (Except.error refErrMsg) := by
  constructor
  · intro env ffuel tfuel lfuel t cwd
    exact List.filter_eq_nil_iff.mpr
      (fun a ha => by simp [linkPackages_no_symlink env ffuel tfuel lfuel t cwd a ha])
  · rfl

/-- Claim C4.  When a reference is a valid range, not an exact version, and
no fetched version satisfies it, `getPinnedReference` fails with the
unsatisfied-range message, which names both the range and the package, and the
error propagates through `getPackageDependencyTree` to the top-level catch
which exits with code 1. -/
theorem claim_C4 (env : Env) (ffuel tfuel lfuel : Nat) (cwd n r : String)
    (rest : List Dep)
    (h1 : env.validRangeB r = true) (h2 : env.validB r = false)
    (h3 : env.maxSatisfying (env.httpJsonVersions n) r = none) :
    (getPinnedReference env n r).1 = Except.error (unsatisfiedMsg n r)
    ∧ occursIn r (unsatisfiedMsg n r)
    ∧ occursIn n (unsatisfiedMsg n r)
    ∧ installRun env ffuel (tfuel + 1) lfuel cwd (Dep.mk n r :: rest) = some 1 := by
  have hpin : (getPinnedReference env n r).1 = Except.error (unsatisfiedMsg n r) := by
    simp [getPinnedReference, h1, h2, h3]
  refine ⟨hpin, occursIn_mid _ r _, occursIn_mid3 _ _ _ n _, ?_⟩
  have hvol : isVolatileDependency env (fun _ => none) (Dep.mk n r) = true := by
    simp [isVolatileDependency, jsSatisfies]
  simp only [installRun, getPackageDependencyTree]
  rw [List.filter_cons_of_pos hvol]
  simp only [getPackageDependencyTreeGo, hpin]

/-- Claim C4 witness: a concrete unsatisfiable range fails the whole
installation with exit code 1. -/
theorem claim_C4_witness :
    (getPinnedReference envRange "left-pad" "^9.9.9").1 =
        Except.error (unsatisfiedMsg "left-pad" "^9.9.9")
    ∧ occursIn "^9.9.9" (unsatisfiedMsg "left-pad" "^9.9.9")
    ∧ occursIn "left-pad" (unsatisfiedMsg "left-pad" "^9.9.9")
    ∧ installRun envRange 0 1 0 "/proj" (Dep.mk "left-pad" "^9.9.9" :: []) = some 1 :=
  claim_C4 envRange 0 0 0 "/proj" "left-pad" "^9.9.9" [] rfl rfl rfl

/-- Claim C5.  The already-satisfied predicate (negation of
`isVolatileDependency`) holds exactly when the available reference equals the
descriptor reference, or the descriptor reference is a valid range that the
available reference satisfies; an absent entry is never satisfied. -/
theorem claim_C5 (env : Env) (available : String → Option String) (d : Dep) :
    (isVolatileDependency env available d = false ↔
      (available d.name = some d.reference ∨
        (env.validRangeB d.reference = true ∧
          ∃ v, available d.name = some v ∧ env.satisfiesB v d.reference = true)))
    ∧ (available d.name = none → isVolatileDependency env available d = true) := by
  constructor
  · unfold isVolatileDependency jsSatisfies
    cases h : available d.name with
    | none => simp [h]
    | some v =>
      by_cases hv : v = d.reference
      · subst hv
        simp [h]
      · cases hr : env.validRangeB d.reference <;>
          cases hs : env.satisfiesB v d.reference <;>
            simp [h, hv, hr, hs]
  · intro h
    simp [isVolatileDependency, jsSatisfies, h]

/-- Claim C5 witness: with an empty available map a range descriptor is
volatile, i.e. resolved afresh. -/
theorem claim_C5_witness :
    isVolatileDependency envRange (fun _ => none) (Dep.mk "a" "^1.0.0") = true :=
  (claim_C5 envRange (fun _ => none) (Dep.mk "a" "^1.0.0")).2 rfl

/-- Claim C6.  When every node of the input tree has children with pairwise
distinct names, the optimized tree keeps that property: pushes into a level
are guarded by a same-name lookup and splices only shorten a child list. -/
theorem claim_C6 (t : Node) (h : WN t) : WN (optimizePackageTree t) :=
  wn_optimize t h

/-- Claim C6 witness: the classic duplicate-grandchild tree is well-named and
stays well-named after optimization. -/
theorem claim_C6_witness : WN (optimizePackageTree treeW) :=
  claim_C6 treeW treeW_wn

/-- Claim C7.  `fetchPackage` dispatches on the reference shape: a path
prefix reads the filesystem and returns the result verbatim, an exact version
recurses on the registry tarball URL, anything else is an HTTP GET returning
the body when ok and otherwise the fetch error naming the reference. -/
theorem claim_C7 (env : Env) (fuel : Nat) (n r : String) :
    fetchPackage env (fuel + 1) n r =
      (if isPathRef r then (some (env.fsRead r), [Ev.readFs r])
       else if env.validB r then fetchPackage env fuel n (registryTarballUrl n r)
       else if (env.http r).ok then
         (some (Except.ok (env.http r).body), [Ev.fetchUrl r])
       else (some (Except.error (fetchErrMsg r)), [Ev.fetchUrl r]))
    ∧ occursIn r (fetchErrMsg r) := by
  refine ⟨?_, occursIn_mid _ r _⟩
  rw [fetchPackage]

/-- Claim C8.  When no entry of the archive has a stripped name equal to the
requested file, `readFileFromArchive` fails with the not-found message, which
names the missing file and differs from the fetch and unsatisfied-range
messages whatever they name. -/
theorem claim_C8 (fileName : String) (entries : List TarEntry) (virtualPath : Nat)
    (h : ∀ e ∈ entries, (getFileName e.header virtualPath == some fileName) = false) :
    readFileFromArchive fileName entries virtualPath =
        Except.error (notFoundMsg fileName)
    ∧ occursIn fileName (notFoundMsg fileName)
    ∧ (∀ r, (notFoundMsg fileName == fetchErrMsg r) = false)
    ∧ (∀ n r, (notFoundMsg fileName == unsatisfiedMsg n r) = false) := by
  refine ⟨?_, occursIn_mid _ fileName _, fun r => notFound_ne_fetch fileName r,
    fun n r => notFound_ne_unsat fileName n r⟩
  have hfind : entries.find?
      (fun e => getFileName e.header virtualPath == some fileName) = none :=
    List.find?_eq_none.mpr (fun x hx => by simp [h x hx])
  simp [readFileFromArchive, hfind]

/-- Claim C8 witness: an archive without `package.json` yields the not-found
error. -/
theorem claim_C8_witness :
    readFileFromArchive "package.json" entriesW 1 =
        Except.error (notFoundMsg "package.json")
    ∧ occursIn "package.json" (notFoundMsg "package.json")
    ∧ (∀ r, (notFoundMsg "package.json" == fetchErrMsg r) = false)
    ∧ (∀ n r, (notFoundMsg "package.json" == unsatisfiedMsg n r) = false) :=
  claim_C8 "package.json" entriesW 1 (by decide)

/-- Claim C9.  A reference that needs no pinning (an exact version, or
anything that is not a valid range, such as a URL or a path) passes through
`getPinnedReference` unchanged and with an empty I/O trace: no network
fetch happens. -/
theorem claim_C9 (env : Env) (n r : String)
    (h : env.validB r = true ∨ env.validRangeB r = false) :
    getPinnedReference env n r = (Except.ok (n, r), []) := by
  rcases h with h | h <;> simp [getPinnedReference, h]

/-- Claim C9 witness: an exact version is returned unchanged, no fetch. -/
theorem claim_C9_witness :
    getPinnedReference envExact "dep" "1.0.0" = (Except.ok ("dep", "1.0.0"), []) :=
  claim_C9 envExact "dep" "1.0.0" (Or.inl rfl)

theorem soloNode_gok : GOk envBin 1 1 soloNode :=
  GOk.mk "solo" "" [] ⟨Node.mk "solo" "" [], rfl⟩
    (fun c hc => absurd hc (List.not_mem_nil c))

/-- Claim C10.  Whenever the redundant `getPackageDependencyTree` calls that
`linkPackages` makes (fresh empty available map, result discarded) succeed,
the variant of the linker with the call removed returns the same outcome and
produces the identical disk-effect trace; the variant trace embeds into the
original one, whose extra events are only fetches, file reads and progress
updates. -/
theorem claim_C10 (env : Env) (ffuel tfuel lfuel : Nat) (t : Node) (cwd : String)
    (h : GOk env ffuel tfuel t) :
    (linkPackages env ffuel tfuel lfuel t cwd).1 =
        (linkPackagesNoCall env ffuel lfuel t cwd).1
    ∧ (linkPackages env ffuel tfuel lfuel t cwd).2.filter isDiskEv =
        (linkPackagesNoCall env ffuel lfuel t cwd).2.filter isDiskEv
    ∧ List.Sublist (linkPackagesNoCall env ffuel lfuel t cwd).2
        (linkPackages env ffuel tfuel lfuel t cwd).2 :=
  linkPackages_rel env ffuel tfuel lfuel t cwd h

/-- Claim C10 witness: on a childless root both linkers agree. -/
theorem claim_C10_witness :
    (linkPackages envBin 1 1 1 soloNode "/w").1 =
        (linkPackagesNoCall envBin 1 1 soloNode "/w").1
    ∧ (linkPackages envBin 1 1 1 soloNode "/w").2.filter isDiskEv =
        (linkPackagesNoCall envBin 1 1 soloNode "/w").2.filter isDiskEv
    ∧ List.Sublist (linkPackagesNoCall envBin 1 1 soloNode "/w").2
        (linkPackages envBin 1 1 1 soloNode "/w").2 :=
  claim_C10 envBin 1 1 1 soloNode "/w" soloNode_gok
